import Mathlib

/-!
Shallow embedding of `src/blockchain.js` (class `Blockchain`) from the
udacity-stars-blockchain repository, together with theorems checking the
natural-language specification against it.

The `Block` class lives in `block.js`, which is not part of the sources;
its constructor defaults, `validate()` and `getBData()` are modelled from
the spec (each such definition carries a doc comment starting
"Modelled from the spec:").  The SHA-256 digest (crypto-js) and the
bitcoinjs-message signature check are external collaborators and are
threaded through the model as function parameters.
-/

namespace StarsBlockchain

/-- Modelled from the spec: the opaque block payload ("Payload codec"
collaborator, block.js body encoding is not under src).  The genesis
block carries the literal data `Genesis Block`; star blocks carry the
`(address, message, star)` triple submitted through `submitStar`.  The
hex/JSON encoding itself is irrelevant to the claims, so the payload is
kept in decoded form. -/
inductive BlockData where
  | genesis : BlockData
  | star (address : String) (message : String) (star : String) : BlockData
deriving DecidableEq, Repr

/-- A committed block, with the fields `_addBlock` assigns:
`height`, `time`, `previousBlockHash` (absent on the genesis block),
the payload `body`, and the stored `hash`. -/
structure Block where
  height : Int
  time : String
  previousBlockHash : Option String
  body : BlockData
  hash : String
deriving DecidableEq, Repr

/-- The `Blockchain` state: the `chain` array and the `height` field
(initialised to `-1` by the constructor before the genesis append). -/
structure Blockchain where
  chain : List Block
  height : Int
deriving DecidableEq, Repr

/-- The digest collaborator (`SHA256(JSON.stringify(block)).toString()`):
a deterministic digest over a block fields with the stored hash excluded
(per the spec, the hash field itself is excluded from the input to the
digest function; block.js, which fixes the serialization, is not under
src). -/
abbrev HashFn := Int → String → Option String → BlockData → String

/-- JavaScript array indexing `l[i]` with a possibly negative index:
`none` models `undefined`. -/
def listGetInt (l : List Block) (i : Int) : Option Block :=
  if h : 0 ≤ i ∧ i.toNat < l.length then some (l.get ⟨i.toNat, h.2⟩) else none

/-- Modelled from the spec: `block.validate()` of block.js (not under
src) recomputes the digest of the block fields with the hash field
excluded and compares it with the stored hash. -/
def blockValidate (digest : HashFn) (b : Block) : Bool :=
  digest b.height b.time b.previousBlockHash b.body == b.hash

/-- A violation pushed onto `errorLog` by `validateChain`: the JS object
`\x7bmessage, block\x7d` where the message names the offending height; the two
message shapes become two constructors. -/
inductive Violation where
  | brokenLink (height : Int) (block : Block)
  | invalidBlock (height : Int) (block : Block)
deriving DecidableEq, Repr

/-- The violations `validateChain` pushes for one block `b` of `chain`:
first the link check (for `b.height > 0`, against `chain[b.height - 1]`),
then the self-validation check.  `none` models the TypeError thrown when
`chain[b.height - 1]` is `undefined`. -/
def blockViolations (digest : HashFn) (chain : List Block) (b : Block) :
    Option (List Violation) :=
  let selfErr : List Violation :=
    if !(blockValidate digest b) then [Violation.invalidBlock b.height b] else []
  if b.height > 0 then
    match listGetInt chain (b.height - 1) with
    | none => none
    | some prevB =>
        let linkErr : List Violation :=
          if b.previousBlockHash ≠ some prevB.hash then
            [Violation.brokenLink b.height b]
          else []
        some (linkErr ++ selfErr)
  else some selfErr

/-- The `forEach` accumulation of `validateChain` over the remaining
blocks `l` of `chain`: collects every violation in order, aborting
(`none`) if a block access throws. -/
def collectViolations (digest : HashFn) (chain : List Block) :
    List Block → Option (List Violation)
  | [] => some []
  | b :: rest =>
      match blockViolations digest chain b with
      | none => none
      | some errs =>
          match collectViolations digest chain rest with
          | none => none
          | some more => some (errs ++ more)

/-- The full `errorLog` computed by `validateChain` on `chain`. -/
def validateChainList (digest : HashFn) (chain : List Block) :
    Option (List Violation) :=
  collectViolations digest chain chain

/-- The string `validateChain` resolves with when `errorLog` is empty. -/
def validMsg : String := "The chain is valid, no error occurred"

/-- `validateChain()`: resolves with the violation list when it is
non-empty, and otherwise with the success string; `none` models the
executor throwing. -/
def validateChain (digest : HashFn) (chain : List Block) :
    Option ((List Violation) ⊕ String) :=
  match validateChainList digest chain with
  | none => none
  | some errs =>
      if errs.length > 0 then some (Sum.inl errs) else some (Sum.inr validMsg)

/-- Outcome of `_addBlock`: resolve with the block, reject with the
`errorLog`, or reject with a thrown exception (`jsError`). -/
inductive AddResult where
  | ok (b : Block)
  | chainError (errs : List Violation)
  | jsError
deriving DecidableEq, Repr

/-- The block `_addBlock` builds before pushing: `height := self.height + 1`,
`time := t`, `previousBlockHash := self._getLatestBlock().hash` when
`self.height >= 0` (with `none` modelling the TypeError when the chain
array is empty there), then `hash := digest` of those fields.  When
`self.height < 0` the previous-hash keeps the constructor default
(absent; modelled from the spec, block.js not under src). -/
def mkBlock (digest : HashFn) (bc : Blockchain) (d : BlockData) (t : String) :
    Option Block :=
  if bc.height ≥ 0 then
    match bc.chain.getLast? with
    | none => none
    | some latest =>
        some { height := bc.height + 1, time := t,
               previousBlockHash := some latest.hash, body := d,
               hash := digest (bc.height + 1) t (some latest.hash) d }
  else
    some { height := bc.height + 1, time := t, previousBlockHash := none,
           body := d, hash := digest (bc.height + 1) t none d }

/-- `_addBlock(block)`: build the block, push it and bump the height
(tentative commit), run `validateChain`, and on a non-empty `errorLog`
pop the block, decrement the height and reject with the list.  A throw
inside `validateChain` rejects without the rollback. -/
def addBlock (digest : HashFn) (bc : Blockchain) (d : BlockData) (t : String) :
    Blockchain × AddResult :=
  match mkBlock digest bc d t with
  | none => (bc, AddResult.jsError)
  | some b =>
      let tentative : Blockchain :=
        { chain := bc.chain ++ [b], height := bc.height + 1 }
      match validateChain digest tentative.chain with
      | none => (tentative, AddResult.jsError)
      | some (Sum.inl errs) =>
          if errs.length > 0 then
            ({ chain := tentative.chain.dropLast,
               height := tentative.height - 1 }, AddResult.chainError errs)
          else (tentative, AddResult.ok b)
      | some (Sum.inr _) => (tentative, AddResult.ok b)

/-- The state set up by the constructor before `initializeChain` runs. -/
def emptyState : Blockchain := { chain := [], height := -1 }

/-- `initializeChain()`: appends the genesis block when `height === -1`. -/
def initializeChain (digest : HashFn) (bc : Blockchain) (t : String) :
    Blockchain :=
  if bc.height = -1 then (addBlock digest bc BlockData.genesis t).1 else bc

/-- A freshly constructed `Blockchain` (constructor plus
`initializeChain`), with genesis timestamp string `t`. -/
def newBlockchain (digest : HashFn) (t : String) : Blockchain :=
  initializeChain digest emptyState t

/-- `getChainHeight()`. -/
def getChainHeight (bc : Blockchain) : Int := bc.height

/-- `requestMessageOwnershipVerification(address)`. -/
def requestMessageOwnershipVerification (address : String) (nowStr : String) :
    String :=
  address ++ ":" ++ nowStr ++ ":starRegistry"

/-- The leading decimal-digit run of `cs`, as JS `parseInt` reads it:
`none` when there is no digit (NaN). -/
def leadDigits (cs : List Char) : Option Nat :=
  let ds := cs.takeWhile (fun c => c.isDigit)
  if ds.isEmpty then none
  else some (ds.foldl (fun n c => n * 10 + (c.toNat - 48)) 0)

/-- JS `s.split(sep)` for a one-character separator, accumulating the
current field in reverse: splitting never drops empty fields, and the
empty string yields one empty field, as in JS. -/
def splitAux (sep : Char) : List Char → List Char → List String
  | acc, [] => [String.mk acc.reverse]
  | acc, c :: rest =>
      if c = sep then String.mk acc.reverse :: splitAux sep [] rest
      else splitAux sep (c :: acc) rest

/-- JS `s.split(sep)` for a one-character separator. -/
def jsSplit (s : String) (sep : Char) : List String :=
  splitAux sep [] s.toList

/-- JS `parseInt(s)` in base 10: skip leading whitespace, read an
optional sign and the leading digit run; `none` models `NaN` (also the
result of `parseInt(undefined)`).  The `0x` hexadecimal prefix special
case is not modelled; no challenge message exercises it. -/
def parseIntJS (s : String) : Option Int :=
  let cs := s.toList.dropWhile (fun c => c = ' ' ∨ c = '\t' ∨ c = '\n' ∨ c = '\r')
  match cs with
  | '-' :: rest => (leadDigits rest).map (fun n => -(n : Int))
  | '+' :: rest => (leadDigits rest).map (fun n => (n : Int))
  | _ => (leadDigits cs).map (fun n => (n : Int))

/-- `parseInt(message.split(':')[1])`: the embedded challenge timestamp;
`none` models `NaN` (missing field or non-numeric field). -/
def challengeTime (message : String) : Option Int :=
  match (jsSplit message ':').get? 1 with
  | none => none
  | some s => parseIntJS s

/-- The freshness test of `submitStar`:
`parseInt(now) - time >= 300`.  Any comparison against `NaN` is false in
JS, so a `none` timestamp never counts as expired. -/
def challengeExpired (message : String) (nowSec : Int) : Bool :=
  match challengeTime message with
  | some t => decide (nowSec - t ≥ 300)
  | none => false

/-- The signature collaborator `bitcoinMessage.verify(message, address,
signature)`: `Except.error e` models a throw with `e.message = e`. -/
abbrev VerifyFn := String → String → String → Except String Bool

/-- Outcome of `submitStar`: resolve with the block, or reject with the
expiry message, the failed-validation message, a thrown verifier error
message, or the `errorLog` adopted from `_addBlock` (`jsError` for an
exception adopted from `_addBlock`). -/
inductive SubmitResult where
  | ok (b : Block)
  | expired
  | invalidSig
  | malformed (e : String)
  | chainError (errs : List Violation)
  | jsError
deriving DecidableEq, Repr

/-- The part of `submitStar` after the freshness check: verify the
signature, and on `true` delegate to `_addBlock` with the
`\x7baddress, message, star\x7d` payload (resolving with its adopted
outcome). -/
def submitVerifyPhase (digest : HashFn) (verify : VerifyFn) (bc : Blockchain)
    (address message signature star : String) (t : String) :
    Blockchain × SubmitResult :=
  match verify message address signature with
  | Except.error e => (bc, SubmitResult.malformed e)
  | Except.ok false => (bc, SubmitResult.invalidSig)
  | Except.ok true =>
      match addBlock digest bc (BlockData.star address message star) t with
      | (bc2, AddResult.ok b) => (bc2, SubmitResult.ok b)
      | (bc2, AddResult.chainError errs) => (bc2, SubmitResult.chainError errs)
      | (bc2, AddResult.jsError) => (bc2, SubmitResult.jsError)

/-- `submitStar(address, message, signature, star)`: reject with the
expiry message when the challenge is stale, otherwise verify and (on
success) append.  `nowSec` is the truncated current time in seconds and
`t` the timestamp string `_addBlock` would store. -/
def submitStar (digest : HashFn) (verify : VerifyFn) (bc : Blockchain)
    (address message signature star : String) (nowSec : Int) (t : String) :
    Blockchain × SubmitResult :=
  if challengeExpired message nowSec then (bc, SubmitResult.expired)
  else submitVerifyPhase digest verify bc address message signature star t

/-- The sentinel string `getBlockByHash` resolves with on a miss. -/
def noHashMsg : String := "There\x27s no block with this hash"

/-- The sentinel string `getBlockByHeight` resolves with on a miss. -/
def noHeightMsg : String := "No block at this height"

/-- `getBlockByHash(hash)`: `self.chain.filter(b => b.hash === hash)[0]`,
resolving with the block when truthy and with a sentinel string
otherwise. -/
def getBlockByHash (bc : Blockchain) (hash : String) : Block ⊕ String :=
  match (bc.chain.filter (fun b => b.hash == hash)).head? with
  | some b => Sum.inl b
  | none => Sum.inr noHashMsg

/-- `getBlockByHeight(height)`: as `getBlockByHash` but on the `height`
field. -/
def getBlockByHeight (bc : Blockchain) (height : Int) : Block ⊕ String :=
  match (bc.chain.filter (fun b => b.height == height)).head? with
  | some b => Sum.inl b
  | none => Sum.inr noHeightMsg

/-- An element of the array `getStarsByWalletAddress` builds: `owner` is
`data.address` (`none` models `undefined`) and `star` is `data.star`
(`none` models the empty object of the genesis placeholder). -/
structure StarEntry where
  owner : Option String
  star : Option String
deriving DecidableEq, Repr

/-- Modelled from the spec: `block.getBData()` of block.js (not under
src) decodes the stored payload back to the submitted data (round-trip
equality of the payload codec).  Reading `.address` / `.star` off the
genesis payload yields `undefined` (`none`). -/
def starEntryOfBlock (b : Block) : StarEntry :=
  if b.height > 0 then
    match b.body with
    | BlockData.star a _ s => { owner := some a, star := some s }
    | BlockData.genesis => { owner := none, star := none }
  else { owner := some "", star := none }

/-- The string `getStarsByWalletAddress` resolves with when the filtered
array is empty. -/
def noStarsMsg : String := "This address owns no stars"

/-- `getStarsByWalletAddress(address)`: map every block to an
`\x7bowner, star\x7d` entry (the genesis branch contributes the placeholder
`\x7bowner: empty string, star: empty object\x7d`), filter by
`owner === address`, and resolve with the list when non-empty and with a
sentinel string otherwise. -/
def getStarsByWalletAddress (bc : Blockchain) (address : String) :
    (List StarEntry) ⊕ String :=
  let entries := (bc.chain.map starEntryOfBlock).filter
    (fun e => e.owner == some address)
  if entries.length > 0 then Sum.inl entries else Sum.inr noStarsMsg

/-- Spec-side consistency check ("every link matches and every block
self-validates"), written from the spec words for the refinement claims:
a chain is fully consistent when every block self-validates and every
block above height 0 stores the hash of the block at the previous
height. -/
def chainConsistentB (digest : HashFn) (chain : List Block) : Bool :=
  chain.all (fun b =>
    blockValidate digest b &&
    (if b.height > 0 then
        match listGetInt chain (b.height - 1) with
        | some prevB => b.previousBlockHash == some prevB.hash
        | none => false
      else true))

/-- Iterated `_addBlock`: runs the given append requests in order,
returning the final state and whether every append resolved with its
block. -/
def addBlocks (digest : HashFn) (bc : Blockchain) :
    List (BlockData × String) → Blockchain × Bool
  | [] => (bc, true)
  | (d, t) :: rest =>
      match addBlock digest bc d t with
      | (bc2, AddResult.ok _) => addBlocks digest bc2 rest
      | (bc2, _) => (bc2, false)

/-- The structural invariant every reachable ledger satisfies: the
height field mirrors the array length, block heights equal positions,
stored hashes are the digests of the block fields, and each link stores
the previous block hash. -/
structure WellFormed (digest : HashFn) (bc : Blockchain) : Prop where
  ht : bc.height = (bc.chain.length : Int) - 1
  heights : ∀ i (h : i < bc.chain.length),
    (bc.chain.get ⟨i, h⟩).height = (i : Int)
  hashes : ∀ i (h : i < bc.chain.length),
    (bc.chain.get ⟨i, h⟩).hash =
      digest (bc.chain.get ⟨i, h⟩).height (bc.chain.get ⟨i, h⟩).time
        (bc.chain.get ⟨i, h⟩).previousBlockHash (bc.chain.get ⟨i, h⟩).body
  links : ∀ i (h : i + 1 < bc.chain.length),
    (bc.chain.get ⟨i + 1, h⟩).previousBlockHash =
      some (bc.chain.get ⟨i, Nat.lt_of_succ_lt h⟩).hash

/-- States reachable from a fresh ledger by the mutating operations
(`_addBlock`, whether it resolves, rolls back or rejects, and
`submitStar`); the query and validation operations do not assign any
state and are pure functions of it in this model. -/
inductive Reachable (digest : HashFn) : Blockchain → Prop where
  | init (t : String) : Reachable digest (newBlockchain digest t)
  | stepAdd {bc : Blockchain} (d : BlockData) (t : String) :
      Reachable digest bc → Reachable digest (addBlock digest bc d t).1
  | stepSubmit {bc : Blockchain} (verify : VerifyFn)
      (address message signature star : String) (nowSec : Int) (t : String) :
      Reachable digest bc →
      Reachable digest
        (submitStar digest verify bc address message signature star nowSec t).1

/-- A concrete stand-in digest for evaluating the model at concrete
inputs (the real collaborator is SHA-256; no claim depends on the
digest's internals). -/
def testDigest : HashFn := fun h t p b =>
  let pb := match p with | none => "-" | some s => s
  let bb := match b with
    | BlockData.genesis => "G"
    | BlockData.star a m s => "S(" ++ a ++ "," ++ m ++ "," ++ s ++ ")"
  "h(" ++ toString h ++ "|" ++ t ++ "|" ++ pb ++ "|" ++ bb ++ ")"

/-- A fresh ledger built with the stand-in digest. -/
def bc0 : Blockchain := newBlockchain testDigest "t0"

/-- A block whose stored hash is not the digest of its fields
(out-of-band corruption). -/
def badBlock : Block :=
  { height := 0, time := "t0", previousBlockHash := none,
    body := BlockData.genesis, hash := "corrupt" }

/-- A ledger whose single block stores a hash that is not the digest of
its fields, used to drive the rollback path at a concrete input. -/
def corruptState : Blockchain := { chain := [badBlock], height := 0 }

/-- The fresh ledger after one concrete star append. -/
def starState : Blockchain :=
  (addBlock testDigest bc0 (BlockData.star "a" "m" "s1") "t1").1

/-- The genesis block a fresh ledger commits: height 0, no
previous-hash, payload `Genesis Block`, digest over those fields. -/
def genesisBlock (digest : HashFn) (t : String) : Block :=
  { height := 0, time := t, previousBlockHash := none,
    body := BlockData.genesis, hash := digest 0 t none BlockData.genesis }

/-- The entry the genesis branch of `getStarsByWalletAddress` produces:
`\x7bowner: empty string, star: empty object\x7d`. -/
def genesisPlaceholder : StarEntry := { owner := some "", star := none }

/-- A verifier that accepts every signature (for concrete runs). -/
def verifyTrue : VerifyFn := fun _ _ _ => Except.ok true

/-- A verifier that reports every signature invalid (for concrete runs). -/
def verifyFalse : VerifyFn := fun _ _ _ => Except.ok false

/-- A verifier that throws on its input (for concrete runs). -/
def verifyThrow : VerifyFn := fun _ _ _ => Except.error "boom"

/-! ## Helper lemmas -/

theorem filter_head_some {α : Type} {p : α → Bool} :
    ∀ {l : List α} {b : α}, (l.filter p).head? = some b → p b = true ∧ b ∈ l := by
  intro l
  induction l with
  | nil => intro b h; simp [List.filter] at h
  | cons a rest ih =>
    intro b h
    rw [List.filter_cons] at h
    by_cases hp : p a
    · simp only [hp, if_true, List.head?_cons, Option.some.injEq] at h
      subst h
      exact ⟨hp, List.mem_cons_self a rest⟩
    · simp only [hp, if_false] at h
      obtain ⟨h1, h2⟩ := ih h
      exact ⟨h1, List.mem_cons_of_mem a h2⟩

theorem filter_head_exists {α : Type} {p : α → Bool} :
    ∀ {l : List α}, (∃ b ∈ l, p b = true) →
      ∃ c, (l.filter p).head? = some c ∧ p c = true ∧ c ∈ l := by
  intro l
  induction l with
  | nil => rintro ⟨b, hb, -⟩; simp at hb
  | cons a rest ih =>
    rintro ⟨b, hb, hpb⟩
    rw [List.mem_cons] at hb
    by_cases hp : p a
    · refine ⟨a, ?_, hp, List.mem_cons_self a rest⟩
      rw [List.filter_cons]
      simp [hp]
    · rcases hb with rfl | hb
      · exact absurd hpb hp
      · obtain ⟨c, hc1, hc2, hc3⟩ := ih ⟨b, hb, hpb⟩
        refine ⟨c, ?_, hc2, List.mem_cons_of_mem a hc3⟩
        rw [List.filter_cons]
        simp [hp, hc1]

theorem listGetInt_nat (l : List Block) (j : Nat) (h : j < l.length) :
    listGetInt l (j : Int) = some (l.get ⟨j, h⟩) := by
  unfold listGetInt
  rw [dif_pos]
  · simp
  · exact ⟨Int.natCast_nonneg j, by simpa using h⟩

/-- If every block of `l` contributes no violation, the collector
returns the empty log. -/
theorem collect_nil_of_all {digest : HashFn} {chain : List Block} :
    ∀ {l : List Block}, (∀ b ∈ l, blockViolations digest chain b = some []) →
      collectViolations digest chain l = some [] := by
  intro l
  induction l with
  | nil => intro _; rfl
  | cons a rest ih =>
    intro hall
    have ha := hall a (List.mem_cons_self a rest)
    have hrest := ih (fun b hb => hall b (List.mem_cons_of_mem a hb))
    unfold collectViolations
    rw [ha, hrest]
    rfl

/-- Every violation a block contributes appears in the collected log. -/
theorem collect_complete {digest : HashFn} {chain : List Block} :
    ∀ {l : List Block} {errs : List Violation},
      collectViolations digest chain l = some errs →
      ∀ b ∈ l, ∀ {bErrs : List Violation},
        blockViolations digest chain b = some bErrs →
        ∀ {v : Violation}, v ∈ bErrs → v ∈ errs := by
  intro l
  induction l with
  | nil => intro errs _ b hb; simp at hb
  | cons a rest ih =>
    intro errs hcol b hb bErrs hbv v hv
    unfold collectViolations at hcol
    cases ha : blockViolations digest chain a with
    | none => rw [ha] at hcol; exact absurd hcol (by simp)
    | some aErrs =>
      rw [ha] at hcol
      cases hrest : collectViolations digest chain rest with
      | none => rw [hrest] at hcol; exact absurd hcol (by simp)
      | some more =>
        rw [hrest] at hcol
        have herrs : errs = aErrs ++ more := by
          simpa using hcol.symm
        subst herrs
        rcases List.mem_cons.mp hb with rfl | hb
        · have : bErrs = aErrs := by rw [ha] at hbv; exact (Option.some.inj hbv).symm
          subst this
          exact List.mem_append_left more hv
        · exact List.mem_append_right aErrs (ih hrest b hb hbv hv)

theorem get_append_left {α : Type} (l1 l2 : List α) (i : Nat)
    (h : i < l1.length) (h2 : i < (l1 ++ l2).length) :
    (l1 ++ l2).get ⟨i, h2⟩ = l1.get ⟨i, h⟩ := by
  have he : (l1 ++ l2).get ⟨i, h2⟩ = (l1 ++ l2)[i] := rfl
  rw [he, List.getElem_append_left h]
  rfl

theorem get_append_last {α : Type} (l : List α) (a : α)
    (h : l.length < (l ++ [a]).length) :
    (l ++ [a]).get ⟨l.length, h⟩ = a := by
  have he : (l ++ [a]).get ⟨l.length, h⟩ = (l ++ [a])[l.length] := rfl
  rw [he]
  simp

theorem getLast?_eq_get (l : List Block) (h : 0 < l.length) :
    l.getLast? = some (l.get ⟨l.length - 1, by omega⟩) := by
  rw [List.getLast?_eq_getElem?]
  exact List.getElem?_eq_getElem (by omega)

/-- On a well-formed ledger no block contributes a violation. -/
theorem wf_blockViolations {digest : HashFn} {bc : Blockchain}
    (wf : WellFormed digest bc) :
    ∀ b ∈ bc.chain, blockViolations digest bc.chain b = some [] := by
  intro b hb
  obtain ⟨⟨i, hi⟩, hget⟩ := List.mem_iff_get.mp hb
  have hh : b.height = (i : Int) := by rw [← hget]; exact wf.heights i hi
  have hhash : blockValidate digest b = true := by
    unfold blockValidate
    rw [beq_iff_eq, ← hget]
    exact (wf.hashes i hi).symm
  cases i with
  | zero =>
    have h0 : ¬ (b.height > 0) := by rw [hh]; decide
    simp [blockViolations, h0, hhash]
  | succ j =>
    have hjlt : j < bc.chain.length := Nat.lt_of_succ_lt hi
    have hpos : b.height > 0 := by rw [hh]; exact_mod_cast Nat.succ_pos j
    have hm1 : b.height - 1 = (j : Int) := by rw [hh]; push_cast; ring
    have hgetj := listGetInt_nat bc.chain j hjlt
    have hlink : b.previousBlockHash = some ((bc.chain.get ⟨j, hjlt⟩).hash) := by
      rw [← hget]
      exact wf.links j hi
    simp [blockViolations, hpos, hm1, hgetj, hlink, hhash]

/-- On a well-formed ledger `validateChain` collects the empty log. -/
theorem wf_validateChainList {digest : HashFn} {bc : Blockchain}
    (wf : WellFormed digest bc) :
    validateChainList digest bc.chain = some [] :=
  collect_nil_of_all (wf_blockViolations wf)

/-- On a well-formed ledger `validateChain` resolves with the success
string. -/
theorem wf_validateChain {digest : HashFn} {bc : Blockchain}
    (wf : WellFormed digest bc) :
    validateChain digest bc.chain = some (Sum.inr validMsg) := by
  unfold validateChain
  rw [wf_validateChainList wf]
  rfl

theorem get_eq_of_index {α : Type} (l : List α) (i j : Nat) (hij : i = j)
    (hi : i < l.length) (hj : j < l.length) : l.get ⟨i, hi⟩ = l.get ⟨j, hj⟩ := by
  subst hij
  rfl

theorem get_append_single {α : Type} (l : List α) (a : α) (i : Nat)
    (h : i < (l ++ [a]).length) :
    (l ++ [a]).get ⟨i, h⟩ = if hi : i < l.length then l.get ⟨i, hi⟩ else a := by
  by_cases hi : i < l.length
  · rw [dif_pos hi]
    exact get_append_left l [a] i hi h
  · rw [dif_neg hi]
    have hie : i = l.length := by
      have := h
      simp at this
      omega
    subst hie
    exact get_append_last l a h

/-- A single self-consistent block at height 0 is a well-formed ledger. -/
theorem wf_singleton {digest : HashFn} (b : Block) (hh : b.height = 0)
    (hhash : b.hash = digest b.height b.time b.previousBlockHash b.body) :
    WellFormed digest { chain := [b], height := 0 } := by
  constructor
  · simp
  · intro i h
    have h1 : i < 1 := by simpa using h
    have hi0 : i = 0 := by omega
    subst hi0
    simpa using hh
  · intro i h
    have h1 : i < 1 := by simpa using h
    have hi0 : i = 0 := by omega
    subst hi0
    exact hhash
  · intro i h
    have h1 : i + 1 < 1 := by simp at h
    omega

/-- On a well-formed ledger `_addBlock` builds a block whose fields make
the extended ledger well-formed again. -/
theorem mkBlock_wf {digest : HashFn} {bc : Blockchain} (wf : WellFormed digest bc)
    (d : BlockData) (t : String) :
    ∃ b : Block, mkBlock digest bc d t = some b ∧ b.height = bc.height + 1 ∧
      WellFormed digest { chain := bc.chain ++ [b], height := bc.height + 1 } := by
  obtain ⟨ch, hgt⟩ := bc
  have hht : hgt = (ch.length : Int) - 1 := wf.ht
  by_cases hc : ch = []
  · subst hc
    have hh : hgt = -1 := by simpa using hht
    have hneg : ¬ (hgt ≥ 0) := by omega
    set b0 : Block := { height := hgt + 1, time := t, previousBlockHash := none,
                        body := d, hash := digest (hgt + 1) t none d } with hb0
    refine ⟨b0, ?_, rfl, ?_⟩
    · unfold mkBlock
      rw [if_neg hneg]
    · have he : ({ chain := ([] : List Block) ++ [b0], height := hgt + 1 } : Blockchain) =
          { chain := [b0], height := 0 } := by
        simp
        omega
      rw [he]
      refine wf_singleton b0 ?_ rfl
      show hgt + 1 = 0
      omega
  · have hlen : 0 < ch.length := List.length_pos.mpr hc
    have hge : hgt ≥ 0 := by omega
    have hlast := getLast?_eq_get ch hlen
    set latest := ch.get ⟨ch.length - 1, by omega⟩ with hlatest
    refine ⟨{ height := hgt + 1, time := t, previousBlockHash := some latest.hash,
              body := d, hash := digest (hgt + 1) t (some latest.hash) d },
            ?_, rfl, ?_⟩
    · unfold mkBlock
      rw [if_pos hge, hlast]
    · constructor
      · simp
        omega
      · intro i h
        have hlt : i < ch.length + 1 := by simpa using h
        rw [get_append_single]
        by_cases hi : i < ch.length
        · rw [dif_pos hi]
          exact wf.heights i hi
        · rw [dif_neg hi]
          have hie : i = ch.length := by omega
          subst hie
          simp
          omega
      · intro i h
        have hlt : i < ch.length + 1 := by simpa using h
        rw [get_append_single]
        by_cases hi : i < ch.length
        · rw [dif_pos hi]
          exact wf.hashes i hi
        · rw [dif_neg hi]
      · intro i h
        have hlt : i + 1 < ch.length + 1 := by simpa using h
        rw [get_append_single, get_append_single]
        by_cases hi : i + 1 < ch.length
        · rw [dif_pos hi, dif_pos (Nat.lt_of_succ_lt hi)]
          exact wf.links i hi
        · have h2 : i < ch.length := by omega
          rw [dif_neg hi, dif_pos h2]
          have hieq : i = ch.length - 1 := by omega
          rw [get_eq_of_index ch i (ch.length - 1) hieq h2 (by omega)]

/-- On a well-formed ledger `_addBlock` resolves with the new block, the
state is the old chain extended by it, and the result is well-formed. -/
theorem wf_addBlock {digest : HashFn} {bc : Blockchain} (wf : WellFormed digest bc)
    (d : BlockData) (t : String) :
    ∃ b : Block,
      addBlock digest bc d t =
        ({ chain := bc.chain ++ [b], height := bc.height + 1 }, AddResult.ok b) ∧
      b.height = bc.height + 1 ∧
      WellFormed digest { chain := bc.chain ++ [b], height := bc.height + 1 } := by
  obtain ⟨b, hmk, hbh, hwf2⟩ := mkBlock_wf wf d t
  refine ⟨b, ?_, hbh, hwf2⟩
  unfold addBlock
  rw [hmk]
  have hv := wf_validateChain hwf2
  simp only at hv ⊢
  rw [hv]

/-- A fresh ledger is exactly the genesis block at height 0. -/
theorem newBlockchain_eq (digest : HashFn) (t : String) :
    newBlockchain digest t =
      { chain := [genesisBlock digest t], height := 0 } := by
  simp [newBlockchain, initializeChain, emptyState, addBlock, mkBlock,
    validateChain, validateChainList, collectViolations, blockViolations,
    blockValidate, genesisBlock]

/-- A fresh ledger is well-formed. -/
theorem wf_newBlockchain (digest : HashFn) (t : String) :
    WellFormed digest (newBlockchain digest t) := by
  rw [newBlockchain_eq]
  exact wf_singleton _ rfl rfl

/-- Iterated appends on a well-formed ledger all succeed, preserve
well-formedness and raise the height by the number of appends. -/
theorem addBlocks_wf {digest : HashFn} :
    ∀ (ops : List (BlockData × String)) {bc : Blockchain},
      WellFormed digest bc →
      (addBlocks digest bc ops).2 = true ∧
      WellFormed digest (addBlocks digest bc ops).1 ∧
      (addBlocks digest bc ops).1.height = bc.height + ops.length := by
  intro ops
  induction ops with
  | nil => intro bc wf; exact ⟨rfl, wf, by simp [addBlocks]⟩
  | cons op rest ih =>
    intro bc wf
    obtain ⟨d, t⟩ := op
    obtain ⟨b2, heq2, hbh2, hwf3⟩ := wf_addBlock wf d t
    unfold addBlocks
    rw [heq2]
    obtain ⟨h1, h2, h3⟩ := ih hwf3
    refine ⟨h1, h2, ?_⟩
    rw [h3]
    simp
    omega

/-- `_addBlock` preserves the height/length relation on every path
(resolution, rollback, and both exception paths). -/
theorem addBlock_heightLen {digest : HashFn} {bc : Blockchain}
    (h : bc.height = (bc.chain.length : Int) - 1) (d : BlockData) (t : String) :
    (addBlock digest bc d t).1.height =
      ((addBlock digest bc d t).1.chain.length : Int) - 1 := by
  cases hmk : mkBlock digest bc d t with
  | none => simpa [addBlock, hmk] using h
  | some b =>
    cases hv : validateChain digest (bc.chain ++ [b]) with
    | none =>
      simp [addBlock, hmk, hv]
      omega
    | some r =>
      cases r with
      | inl errs =>
        by_cases he : errs.length > 0
        · simp [addBlock, hmk, hv, he]
          omega
        · simp [addBlock, hmk, hv, he]
          omega
      | inr s =>
        simp [addBlock, hmk, hv]
        omega

/-- The state `submitVerifyPhase` leaves behind is either the input
state or the state `_addBlock` leaves behind. -/
theorem submitVerifyPhase_fst (digest : HashFn) (verify : VerifyFn)
    (bc : Blockchain) (a m s st t : String) :
    (submitVerifyPhase digest verify bc a m s st t).1 = bc ∨
    (submitVerifyPhase digest verify bc a m s st t).1 =
      (addBlock digest bc (BlockData.star a m st) t).1 := by
  unfold submitVerifyPhase
  cases verify m a s with
  | error e => exact Or.inl rfl
  | ok v =>
    cases v with
    | false => exact Or.inl rfl
    | true =>
      right
      rcases haddr : addBlock digest bc (BlockData.star a m st) t with ⟨bc2, r⟩
      cases r <;> simp [haddr]

/-- Reading off the components of a `validateChain` rejection. -/
theorem validateChain_inl {digest : HashFn} {chain : List Block}
    {errs : List Violation}
    (h : validateChain digest chain = some (Sum.inl errs)) :
    validateChainList digest chain = some errs ∧ 0 < errs.length := by
  unfold validateChain at h
  cases hl : validateChainList digest chain with
  | none => rw [hl] at h; exact absurd h (by simp)
  | some es =>
    rw [hl] at h
    have h2 : (if es.length > 0 then some (Sum.inl es)
        else some (Sum.inr validMsg) :
        Option ((List Violation) ⊕ String)) = some (Sum.inl errs) := h
    by_cases he : es.length > 0
    · rw [if_pos he] at h2
      have : es = errs := by simpa using h2
      subst this
      exact ⟨rfl, he⟩
    · rw [if_neg he] at h2
      simp at h2

/-- A spec-consistent block contributes no violation. -/
theorem consistent_blockViolations {digest : HashFn} {chain : List Block}
    (hcons : chainConsistentB digest chain = true) :
    ∀ b ∈ chain, blockViolations digest chain b = some [] := by
  intro b hb
  have hball := (List.all_eq_true.mp hcons) b hb
  rw [Bool.and_eq_true] at hball
  obtain ⟨hval, hlink⟩ := hball
  unfold blockViolations
  rw [hval]
  simp only [Bool.not_true, Bool.false_eq_true, if_false]
  by_cases hpos : b.height > 0
  · rw [if_pos hpos]
    rw [if_pos hpos] at hlink
    cases hlook : listGetInt chain (b.height - 1) with
    | none => rw [hlook] at hlink; simp at hlink
    | some prevB =>
      rw [hlook] at hlink
      have : b.previousBlockHash = some prevB.hash := by
        exact beq_iff_eq.mp hlink
      simp [this]
  · rw [if_neg hpos]

/-- A spec-consistent ledger makes `validateChain` resolve with the
success string. -/
theorem consistent_validateChain {digest : HashFn} {chain : List Block}
    (hcons : chainConsistentB digest chain = true) :
    validateChain digest chain = some (Sum.inr validMsg) := by
  unfold validateChain validateChainList
  rw [collect_nil_of_all (consistent_blockViolations hcons)]
  rfl

/-- A successful collection assigns some violation list to every block. -/
theorem collect_some_of_mem {digest : HashFn} {chain : List Block} :
    ∀ {l : List Block} {errs : List Violation},
      collectViolations digest chain l = some errs →
      ∀ b ∈ l, ∃ bErrs, blockViolations digest chain b = some bErrs := by
  intro l
  induction l with
  | nil => intro errs _ b hb; simp at hb
  | cons a rest ih =>
    intro errs hcol b hb
    unfold collectViolations at hcol
    cases ha : blockViolations digest chain a with
    | none => rw [ha] at hcol; exact absurd hcol (by simp)
    | some aErrs =>
      rw [ha] at hcol
      cases hrest : collectViolations digest chain rest with
      | none => rw [hrest] at hcol; exact absurd hcol (by simp)
      | some more =>
        rcases List.mem_cons.mp hb with rfl | hb
        · exact ⟨aErrs, ha⟩
        · exact ih hrest b hb

/-- A block with a broken link puts the matching violation into its own
contribution. -/
theorem blockViolations_brokenLink {digest : HashFn} {chain : List Block}
    {b prevB : Block} (hpos : b.height > 0)
    (hlook : listGetInt chain (b.height - 1) = some prevB)
    (hne : b.previousBlockHash ≠ some prevB.hash) :
    ∀ {bErrs : List Violation}, blockViolations digest chain b = some bErrs →
      Violation.brokenLink b.height b ∈ bErrs := by
  intro bErrs hb
  unfold blockViolations at hb
  rw [if_pos hpos, hlook] at hb
  simp only [if_pos hne] at hb
  have : Violation.brokenLink b.height b ::
      (if !(blockValidate digest b) then [Violation.invalidBlock b.height b]
       else []) = bErrs := by
    simpa using hb
  rw [← this]
  exact List.mem_cons_self _ _

/-- A block that fails self-validation puts the matching violation into
its own contribution. -/
theorem blockViolations_invalid {digest : HashFn} {chain : List Block}
    {b : Block} (hval : blockValidate digest b = false) :
    ∀ {bErrs : List Violation}, blockViolations digest chain b = some bErrs →
      Violation.invalidBlock b.height b ∈ bErrs := by
  intro bErrs hb
  unfold blockViolations at hb
  rw [hval] at hb
  simp only [Bool.not_false, if_true] at hb
  by_cases hpos : b.height > 0
  · rw [if_pos hpos] at hb
    cases hlook : listGetInt chain (b.height - 1) with
    | none => rw [hlook] at hb; simp at hb
    | some prevB =>
      rw [hlook] at hb
      have : (if b.previousBlockHash ≠ some prevB.hash then
          [Violation.brokenLink b.height b] else []) ++
          [Violation.invalidBlock b.height b] = bErrs := by
        simpa using hb
      rw [← this]
      exact List.mem_append_right _ (List.mem_singleton.mpr rfl)
  · rw [if_neg hpos] at hb
    have : [Violation.invalidBlock b.height b] = bErrs := by simpa using hb
    rw [← this]
    exact List.mem_singleton.mpr rfl

/-- The hash `_addBlock` assigns is the digest of the block own fields
(the hash field not among them). -/
theorem mkBlock_hash {digest : HashFn} {bc : Blockchain} {d : BlockData}
    {t : String} {b : Block} (h : mkBlock digest bc d t = some b) :
    b.hash = digest b.height b.time b.previousBlockHash b.body := by
  unfold mkBlock at h
  by_cases hge : bc.height ≥ 0
  · rw [if_pos hge] at h
    cases hl : bc.chain.getLast? with
    | none => rw [hl] at h; simp at h
    | some latest =>
      rw [hl] at h
      rw [← Option.some.inj h]
  · rw [if_neg hge] at h
    rw [← Option.some.inj h]

/-- A resolving `_addBlock` resolves with exactly the block it built. -/
theorem addBlock_ok_mkBlock {digest : HashFn} {bc : Blockchain} {d : BlockData}
    {t : String} {bc2 : Blockchain} {b : Block}
    (h : addBlock digest bc d t = (bc2, AddResult.ok b)) :
    mkBlock digest bc d t = some b := by
  cases hmk : mkBlock digest bc d t with
  | none => simp [addBlock, hmk] at h
  | some b0 =>
    cases hv : validateChain digest (bc.chain ++ [b0]) with
    | none => simp [addBlock, hmk, hv] at h
    | some r =>
      cases r with
      | inl errs =>
        by_cases he : errs.length > 0
        · simp [addBlock, hmk, hv, he] at h
        · simp [addBlock, hmk, hv, he] at h
          exact congrArg some h.2
      | inr s =>
        simp [addBlock, hmk, hv] at h
        exact congrArg some h.2

/-- Claim C1: when the post-append validation reports violations,
`_addBlock` pops the just-added block, restores the previous height —
leaving exactly the pre-append ledger state — and rejects with the
violation list. -/
theorem addBlock_rollback {digest : HashFn} {bc : Blockchain} {d : BlockData}
    {t : String} {b : Block} {errs : List Violation}
    (hmk : mkBlock digest bc d t = some b)
    (hval : validateChain digest (bc.chain ++ [b]) = some (Sum.inl errs)) :
    addBlock digest bc d t = (bc, AddResult.chainError errs) := by
  obtain ⟨hlist, hpos⟩ := validateChain_inl hval
  simp [addBlock, hmk, hval, hpos]

/-- Witness for C1 at a concrete corrupt ledger: the failed append
returns the unchanged state together with the violation list. -/
theorem addBlock_rollback_witness :
    addBlock testDigest corruptState BlockData.genesis "t1" =
      (corruptState, AddResult.chainError [Violation.invalidBlock 0 badBlock]) :=
  @addBlock_rollback testDigest corruptState BlockData.genesis "t1"
    { height := 1, time := "t1", previousBlockHash := some "corrupt",
      body := BlockData.genesis, hash := "h(1|t1|corrupt|G)" }
    [Violation.invalidBlock 0 badBlock]
    (by decide) (by decide)

/-- Claim C2: a fresh ledger has height 0, its only block is the
genesis block with no previous-hash, and validation collects no
violation; after any sequence of appends — all of which succeed — the
height equals the number of appends and validation still collects no
violation. -/
theorem fresh_and_appends_valid (digest : HashFn) (t0 : String)
    (ops : List (BlockData × String)) :
    (newBlockchain digest t0).height = 0 ∧
    (newBlockchain digest t0).chain = [genesisBlock digest t0] ∧
    (genesisBlock digest t0).previousBlockHash = none ∧
    validateChainList digest (newBlockchain digest t0).chain = some [] ∧
    (addBlocks digest (newBlockchain digest t0) ops).2 = true ∧
    (addBlocks digest (newBlockchain digest t0) ops).1.height =
      (ops.length : Int) ∧
    validateChainList digest
      (addBlocks digest (newBlockchain digest t0) ops).1.chain = some [] := by
  have hwf : WellFormed digest (newBlockchain digest t0) :=
    wf_newBlockchain digest t0
  obtain ⟨h1, h2, h3⟩ := addBlocks_wf ops hwf
  refine ⟨by rw [newBlockchain_eq], by rw [newBlockchain_eq], rfl,
    wf_validateChainList hwf, h1, ?_, wf_validateChainList h2⟩
  rw [h3]
  have hh0 : (newBlockchain digest t0).height = 0 := by rw [newBlockchain_eq]
  omega

/-- Claim C3: every block `_addBlock` resolves with stores as its hash
the digest of its height, timestamp, previous-hash and payload, the
hash field itself excluded from the digest input. -/
theorem addBlock_hash_spec {digest : HashFn} {bc : Blockchain} {d : BlockData}
    {t : String} {bc2 : Blockchain} {b : Block}
    (h : addBlock digest bc d t = (bc2, AddResult.ok b)) :
    b.hash = digest b.height b.time b.previousBlockHash b.body :=
  mkBlock_hash (addBlock_ok_mkBlock h)

/-- Witness for C3 at a concrete append onto the fresh ledger. -/
theorem addBlock_hash_spec_witness :
    ({ height := 1, time := "t1", previousBlockHash := some "h(0|t0|-|G)",
       body := BlockData.star "a" "m" "s1",
       hash := "h(1|t1|h(0|t0|-|G)|S(a,m,s1))" } : Block).hash =
      testDigest 1 "t1" (some "h(0|t0|-|G)") (BlockData.star "a" "m" "s1") :=
  @addBlock_hash_spec testDigest bc0 (BlockData.star "a" "m" "s1") "t1"
    { chain := [{ height := 0, time := "t0", previousBlockHash := none,
                  body := BlockData.genesis, hash := "h(0|t0|-|G)" },
                { height := 1, time := "t1",
                  previousBlockHash := some "h(0|t0|-|G)",
                  body := BlockData.star "a" "m" "s1",
                  hash := "h(1|t1|h(0|t0|-|G)|S(a,m,s1))" }],
      height := 1 }
    { height := 1, time := "t1", previousBlockHash := some "h(0|t0|-|G)",
      body := BlockData.star "a" "m" "s1",
      hash := "h(1|t1|h(0|t0|-|G)|S(a,m,s1))" }
    (by decide)

/-- Claim C9: in every reachable ledger state the height field equals
the chain length minus one. -/
theorem reachable_height_invariant {digest : HashFn} {bc : Blockchain}
    (h : Reachable digest bc) : bc.height = (bc.chain.length : Int) - 1 := by
  induction h with
  | init t => rw [newBlockchain_eq]; simp
  | stepAdd d t hr ih => exact addBlock_heightLen ih d t
  | stepSubmit verify a m s st now t hr ih =>
    unfold submitStar
    by_cases he : challengeExpired m now
    · rw [if_pos he]
      exact ih
    · rw [if_neg he]
      rcases submitVerifyPhase_fst digest verify _ a m s st t with heq | heq
      · rw [heq]
        exact ih
      · rw [heq]
        exact addBlock_heightLen ih _ _

/-- Witness for C9 at the concrete fresh ledger. -/
theorem reachable_height_invariant_witness :
    bc0.height = (bc0.chain.length : Int) - 1 :=
  reachable_height_invariant (Reachable.init "t0")

/-- Claim C6: a challenge whose embedded timestamp is 300 or more
seconds old makes `submitStar` reject with the expiry message, leaving
the ledger unchanged. -/
theorem submitStar_expired {digest : HashFn} {verify : VerifyFn}
    {bc : Blockchain} {address message signature star : String}
    {nowSec : Int} {t : String} {tm : Int}
    (hts : challengeTime message = some tm) (hold : nowSec - tm ≥ 300) :
    submitStar digest verify bc address message signature star nowSec t =
      (bc, SubmitResult.expired) := by
  have he : challengeExpired message nowSec = true := by
    unfold challengeExpired
    rw [hts]
    simpa using hold
  unfold submitStar
  rw [if_pos he]

/-- Witness for C6 at a concrete stale challenge. -/
theorem submitStar_expired_witness :
    challengeTime "a:100:starRegistry" = some 100 ∧
    (400 : Int) - 100 ≥ 300 ∧
    submitStar testDigest verifyTrue bc0 "a" "a:100:starRegistry" "sig"
      "star1" 400 "t1" = (bc0, SubmitResult.expired) :=
  ⟨by decide, by decide,
   @submitStar_expired testDigest verifyTrue bc0 "a" "a:100:starRegistry"
     "sig" "star1" 400 "t1" 100 (by decide) (by decide)⟩

/-- Claim C7: past the freshness check, a verifier returning false makes
`submitStar` reject with the failed-validation message and a throwing
verifier makes it reject with the thrown message; the ledger is
unchanged either way. -/
theorem submitStar_badSignature {digest : HashFn} {verify : VerifyFn}
    {bc : Blockchain} {address message signature star : String}
    {nowSec : Int} {t : String}
    (hfresh : challengeExpired message nowSec = false) :
    (verify message address signature = Except.ok false →
      submitStar digest verify bc address message signature star nowSec t =
        (bc, SubmitResult.invalidSig)) ∧
    (∀ e, verify message address signature = Except.error e →
      submitStar digest verify bc address message signature star nowSec t =
        (bc, SubmitResult.malformed e)) := by
  have hne : ¬ (challengeExpired message nowSec = true) := by simp [hfresh]
  constructor
  · intro hv
    unfold submitStar
    rw [if_neg hne]
    unfold submitVerifyPhase
    rw [hv]
  · intro e hv
    unfold submitStar
    rw [if_neg hne]
    unfold submitVerifyPhase
    rw [hv]

/-- Witness for C7 at a concrete fresh challenge with the two failing
verifiers. -/
theorem submitStar_badSignature_witness :
    submitStar testDigest verifyFalse bc0 "a" "a:100:starRegistry" "sig"
      "star1" 200 "t1" = (bc0, SubmitResult.invalidSig) ∧
    submitStar testDigest verifyThrow bc0 "a" "a:100:starRegistry" "sig"
      "star1" 200 "t1" = (bc0, SubmitResult.malformed "boom") :=
  ⟨(submitStar_badSignature (by decide)).1 rfl,
   (submitStar_badSignature (by decide)).2 "boom" rfl⟩

/-- Claim C10: when the second colon-delimited field of the message does
not parse as an integer, the NaN comparison is false, so `submitStar`
never rejects as expired and proceeds directly to signature
verification. -/
theorem submitStar_nan_never_expires {digest : HashFn} {verify : VerifyFn}
    {bc : Blockchain} {address message signature star : String}
    {nowSec : Int} {t : String}
    (hnan : challengeTime message = none) :
    submitStar digest verify bc address message signature star nowSec t =
      submitVerifyPhase digest verify bc address message signature star t ∧
    (submitStar digest verify bc address message signature star nowSec t).2 ≠
      SubmitResult.expired := by
  have hexp : challengeExpired message nowSec = false := by
    unfold challengeExpired
    rw [hnan]
  have hne : ¬ (challengeExpired message nowSec = true) := by simp [hexp]
  have heq : submitStar digest verify bc address message signature star nowSec t =
      submitVerifyPhase digest verify bc address message signature star t := by
    unfold submitStar
    rw [if_neg hne]
  refine ⟨heq, ?_⟩
  rw [heq]
  unfold submitVerifyPhase
  cases hv : verify message address signature with
  | error e => simp
  | ok v =>
    cases v with
    | false => simp
    | true =>
      rcases haddr : addBlock digest bc (BlockData.star address message star) t
        with ⟨bc2, r⟩
      cases r <;> simp

/-- Witness for C10 at a concrete colon-free message under a stale
clock. -/
theorem submitStar_nan_never_expires_witness :
    challengeTime "nocolons" = none ∧
    submitStar testDigest verifyTrue bc0 "a" "nocolons" "sig" "star1"
      99999 "t1" =
      submitVerifyPhase testDigest verifyTrue bc0 "a" "nocolons" "sig"
        "star1" "t1" ∧
    (submitStar testDigest verifyTrue bc0 "a" "nocolons" "sig" "star1"
      99999 "t1").2 ≠ SubmitResult.expired :=
  ⟨by decide, (submitStar_nan_never_expires (by decide)).1,
   (submitStar_nan_never_expires (by decide)).2⟩

/-- Counterexample for C4: on a fully consistent ledger `validateChain`
resolves with the success string, not with an empty violation list. -/
theorem validateChain_string_counterexample :
    chainConsistentB testDigest bc0.chain = true ∧
    validateChain testDigest bc0.chain = some (Sum.inr validMsg) ∧
    validateChain testDigest bc0.chain ≠ some (Sum.inl []) := by decide

/-- Claim C4 (amended): on a fully consistent ledger `validateChain`
resolves with the success string (rather than an empty list), and any
rejected violation list is non-empty and carries every broken link and
every self-hash mismatch, each naming the offending height. -/
theorem validateChain_spec (digest : HashFn) (chain : List Block) :
    (chainConsistentB digest chain = true →
      validateChain digest chain = some (Sum.inr validMsg)) ∧
    (∀ errs, validateChain digest chain = some (Sum.inl errs) →
      0 < errs.length ∧
      (∀ b ∈ chain, ∀ prevB : Block, b.height > 0 →
        listGetInt chain (b.height - 1) = some prevB →
        b.previousBlockHash ≠ some prevB.hash →
        Violation.brokenLink b.height b ∈ errs) ∧
      (∀ b ∈ chain, blockValidate digest b = false →
        Violation.invalidBlock b.height b ∈ errs)) := by
  refine ⟨consistent_validateChain, ?_⟩
  intro errs hv
  obtain ⟨hlist, hpos⟩ := validateChain_inl hv
  refine ⟨hpos, ?_, ?_⟩
  · intro b hb prevB hbpos hlook hne
    obtain ⟨bErrs, hbv⟩ := collect_some_of_mem hlist b hb
    exact collect_complete hlist b hb hbv
      (blockViolations_brokenLink hbpos hlook hne hbv)
  · intro b hb hval
    obtain ⟨bErrs, hbv⟩ := collect_some_of_mem hlist b hb
    exact collect_complete hlist b hb hbv
      (blockViolations_invalid hval hbv)

/-- Witness for C4 at the concrete fresh ledger (consistent) and the
concrete corrupt ledger (one self-hash mismatch at height 0). -/
theorem validateChain_spec_witness :
    validateChain testDigest bc0.chain = some (Sum.inr validMsg) ∧
    Violation.invalidBlock 0 badBlock ∈ [Violation.invalidBlock 0 badBlock] :=
  ⟨(validateChain_spec testDigest bc0.chain).1 (by decide),
   (((validateChain_spec testDigest corruptState.chain).2
      [Violation.invalidBlock 0 badBlock] (by decide)).2.2 badBlock
      (by decide) (by decide))⟩

/-- Counterexample for C5: querying the empty-string address on a fresh
ledger (whose only block is the genesis block) returns the genesis
placeholder entry to the caller. -/
theorem stars_genesis_counterexample :
    bc0.chain = [genesisBlock testDigest "t0"] ∧
    getStarsByWalletAddress bc0 "" = Sum.inl [genesisPlaceholder] := by decide

/-- Claim C5 (amended): for every address other than the empty string,
the placeholder entry produced for the genesis block never appears in a
resolved star list; only the empty-string address can receive it. -/
theorem stars_no_genesis_entry (bc : Blockchain) (address : String)
    (hne : address ≠ "") :
    ∀ l, getStarsByWalletAddress bc address = Sum.inl l →
      genesisPlaceholder ∉ l := by
  intro l hl hmem
  simp only [getStarsByWalletAddress] at hl
  by_cases hp : ((bc.chain.map starEntryOfBlock).filter
      (fun e => e.owner == some address)).length > 0
  · rw [if_pos hp] at hl
    obtain rfl := Sum.inl.inj hl
    have hown := (List.mem_filter.mp hmem).2
    have : ("" : String) = address := by
      simpa [genesisPlaceholder] using hown
    exact hne this.symm
  · rw [if_neg hp] at hl
    simp at hl

/-- Witness for C5 at a concrete one-star ledger and address. -/
theorem stars_no_genesis_entry_witness :
    genesisPlaceholder ∉ [({ owner := some "a", star := some "s1" } : StarEntry)] :=
  stars_no_genesis_entry starState "a" (by decide)
    [{ owner := some "a", star := some "s1" }] (by decide)

/-- Counterexample for C8: lookup misses resolve with sentinel strings,
not an explicit not-found value. -/
theorem lookup_sentinel_counterexample :
    getBlockByHash bc0 "zzz" = Sum.inr "There\x27s no block with this hash" ∧
    getBlockByHeight bc0 5 = Sum.inr "No block at this height" := by decide

/-- Claim C8 (amended): each lookup resolves with a block exactly when a
committed block matches — the first such block — and otherwise resolves
with its sentinel string. -/
theorem lookup_spec (bc : Blockchain) (hsh : String) (ht : Int) :
    ((∀ b ∈ bc.chain, b.hash ≠ hsh) →
      getBlockByHash bc hsh = Sum.inr noHashMsg) ∧
    (∀ b, getBlockByHash bc hsh = Sum.inl b → b ∈ bc.chain ∧ b.hash = hsh) ∧
    ((∃ b ∈ bc.chain, b.hash = hsh) →
      ∃ b, getBlockByHash bc hsh = Sum.inl b ∧ b.hash = hsh ∧ b ∈ bc.chain) ∧
    ((∀ b ∈ bc.chain, b.height ≠ ht) →
      getBlockByHeight bc ht = Sum.inr noHeightMsg) ∧
    (∀ b, getBlockByHeight bc ht = Sum.inl b →
      b ∈ bc.chain ∧ b.height = ht) ∧
    ((∃ b ∈ bc.chain, b.height = ht) →
      ∃ b, getBlockByHeight bc ht = Sum.inl b ∧ b.height = ht ∧ b ∈ bc.chain) := by
  refine ⟨?_, ?_, ?_, ?_, ?_, ?_⟩
  · intro hmiss
    unfold getBlockByHash
    have hfil : bc.chain.filter (fun b => b.hash == hsh) = [] := by
      rw [List.filter_eq_nil_iff]
      intro a ha
      simp [hmiss a ha]
    rw [hfil]
    rfl
  · intro b hb
    unfold getBlockByHash at hb
    cases hh : (bc.chain.filter (fun b => b.hash == hsh)).head? with
    | none => rw [hh] at hb; simp at hb
    | some c =>
      rw [hh] at hb
      obtain rfl := Sum.inl.inj hb
      obtain ⟨h1, h2⟩ := filter_head_some hh
      exact ⟨h2, beq_iff_eq.mp h1⟩
  · rintro ⟨b, hb, hbh⟩
    obtain ⟨c, hc1, hc2, hc3⟩ :=
      @filter_head_exists Block (fun x => x.hash == hsh) bc.chain
        ⟨b, hb, by simp [hbh]⟩
    refine ⟨c, ?_, beq_iff_eq.mp hc2, hc3⟩
    unfold getBlockByHash
    rw [hc1]
  · intro hmiss
    unfold getBlockByHeight
    have hfil : bc.chain.filter (fun b => b.height == ht) = [] := by
      rw [List.filter_eq_nil_iff]
      intro a ha
      simp [hmiss a ha]
    rw [hfil]
    rfl
  · intro b hb
    unfold getBlockByHeight at hb
    cases hh : (bc.chain.filter (fun b => b.height == ht)).head? with
    | none => rw [hh] at hb; simp at hb
    | some c =>
      rw [hh] at hb
      obtain rfl := Sum.inl.inj hb
      obtain ⟨h1, h2⟩ := filter_head_some hh
      exact ⟨h2, beq_iff_eq.mp h1⟩
  · rintro ⟨b, hb, hbh⟩
    obtain ⟨c, hc1, hc2, hc3⟩ :=
      @filter_head_exists Block (fun x => x.height == ht) bc.chain
        ⟨b, hb, by simp [hbh]⟩
    refine ⟨c, ?_, beq_iff_eq.mp hc2, hc3⟩
    unfold getBlockByHeight
    rw [hc1]

/-- Witness for C8: a hit on the genesis hash and a miss on an absent
height at the concrete fresh ledger. -/
theorem lookup_spec_witness :
    (∃ b, getBlockByHash bc0 "h(0|t0|-|G)" = Sum.inl b ∧
      b.hash = "h(0|t0|-|G)" ∧ b ∈ bc0.chain) ∧
    getBlockByHeight bc0 9 = Sum.inr noHeightMsg :=
  ⟨(lookup_spec bc0 "h(0|t0|-|G)" 9).2.2.1 (by decide),
   (lookup_spec bc0 "h(0|t0|-|G)" 9).2.2.2.1 (by decide)⟩

end StarsBlockchain
